import Mathlib

/-!
# Verification of the witskit transport frame-extraction layer

This file gives a shallow embedding of the buffer-scan frame extraction that
is duplicated across the transport readers of the `witskit` repository
(`transport/file_reader.py` `FileReader.stream`, `transport/tcp_reader.py` and
`witskit/transport/tcp_reader.py` `TCPReader.stream`,
`transport/serial_reader.py` `SerialReader.stream`,
`witskit/transport/requesting_tcp_reader.py` `RequestingTCPReader.stream`),
of the readers' `close` methods, and of the unit-conversion arithmetic used by
`witskit convert` (`witskit/cli.py` `convert_command`).

Python strings are modelled as `List Char`.  The Python loop

```
while "&&" in buffer and "!!" in buffer:
    start = buffer.index("&&")
    end = buffer.index("!!") + 2
    yield buffer[start:end]
    buffer = buffer[end:]
```

is modelled by `scanStep` (one iteration) and `drain` (the whole loop);
feeding successive chunks into the buffer (`buffer += chunk` followed by the
loop) is `runScan` / `stream`.
-/

/-- The start marker `"&&"`. -/
def amp : List Char := ['&', '&']

/-- The end marker `"!!"`. -/
def bang : List Char := ['!', '!']

/-- `isPre p s` holds when the pattern `p` occurs at the very front of `s`
(Python `s.startswith(p)`). -/
def isPre : List Char → List Char → Bool
  | [], _ => true
  | _ :: _, [] => false
  | a :: p, b :: s => if a = b then isPre p s else false

/-- Index of the first occurrence of pattern `p` in `s`, if any: this is
Python `s.index(p)`, with `none` standing for "not found" (Python `p in s`
being false). -/
def findSub (p : List Char) : List Char → Option Nat
  | [] => if isPre p [] then some 0 else none
  | c :: s => if isPre p (c :: s) then some 0 else (findSub p s).map (· + 1)

/-- Python `p in s` for strings. -/
def hasSub (p s : List Char) : Bool := (findSub p s).isSome

/-- One iteration of the scan loop shared by every reader's `stream` method:
when both markers occur in the buffer, extract `buffer[start:end]` with
`start = buffer.index("&&")` and `end = buffer.index("!!") + 2`, and keep
`buffer[end:]`; otherwise the loop stops (`none`).  Python slices with
`end ≤ start` give the empty string, which `List.take` reproduces through
truncated subtraction. -/
def scanStep (buf : List Char) : Option (List Char × List Char) :=
  match findSub amp buf, findSub bang buf with
  | some s, some e => some ((buf.drop s).take (e + 2 - s), buf.drop (e + 2))
  | _, _ => none

/-- Fuel-indexed unfolding of the scan loop; `buf.length` fuel always
suffices because each iteration shortens the buffer (see
`scanStep_length_lt`). -/
def drainFuel : Nat → List Char → List (List Char) × List Char
  | 0, buf => ([], buf)
  | n + 1, buf =>
    match scanStep buf with
    | some (f, rest) =>
      let r := drainFuel n rest
      (f :: r.1, r.2)
    | none => ([], buf)

/-- The full `while "&&" in buffer and "!!" in buffer` loop: the list of
frames yielded from the current buffer, together with the remaining buffer. -/
def drain (buf : List Char) : List (List Char) × List Char :=
  drainFuel buf.length buf

/-- Feed chunks one after the other into the buffer, draining all complete
frames after each append — the shape of every reader's `stream` method. -/
def runScan (buf : List Char) : List (List Char) → List (List Char) × List Char
  | [] => ([], buf)
  | c :: cs =>
    let d := drain (buf ++ c)
    let r := runScan d.2 cs
    (d.1 ++ r.1, r.2)

/-- All frames yielded by a reader's `stream` for a given sequence of input
chunks, starting from the empty buffer, together with the final leftover
buffer. -/
def stream (chunks : List (List Char)) : List (List Char) × List Char :=
  runScan [] chunks

/-- A well-formed WITS frame: `"&&" ++ body ++ "!!"` where the body contains
no start marker and creates no end marker before the closing one (no `"!!"`
occurs in `body ++ "!"`). -/
def wfFrame (f : List Char) : Prop :=
  ∃ body, f = amp ++ body ++ bang ∧
    hasSub amp body = false ∧ hasSub bang (body ++ ['!']) = false

/-- A single socket-read outcome inside `TCPReader.stream`'s `while True`
loop (`transport/tcp_reader.py`, `witskit/transport/tcp_reader.py`,
`witskit/transport/requesting_tcp_reader.py`): `recv` returns decoded text
(the empty string meaning the peer closed the connection), raises
`ConnectionResetError`, or raises some other exception whose message the
code prints before breaking. -/
inductive RecvResult where
  | data : List Char → RecvResult
  | connReset : RecvResult
  | failure : String → RecvResult

/-- The body of `TCPReader.stream`'s `while True` loop: read, break on empty
data, otherwise append to the buffer and drain complete frames; a
`ConnectionResetError` or any other exception is caught and turns into a
plain `break`.  The `Except` result is what the generator's caller observes:
`.error` would be an exception propagating out of the generator, and the
`try/except` in the source means it is never produced. -/
def tcpGo : List Char → List RecvResult → Except String (List (List Char))
  | _, [] => .ok []
  | buf, .data c :: es =>
    if c = [] then .ok []
    else
      match tcpGo (drain (buf ++ c)).2 es with
      | .ok fs => .ok ((drain (buf ++ c)).1 ++ fs)
      | .error e => .error e
  | _, .connReset :: _ => .ok []
  | _, .failure _ :: _ => .ok []

/-- `TCPReader.stream` as seen from the caller: all frames yielded for a
given sequence of socket-read outcomes, or a propagated exception. -/
def tcpStream (events : List RecvResult) : Except String (List (List Char)) :=
  tcpGo [] events

/-- `FileReader.close` / `TCPReader.close` / `RequestingTCPReader.close`:
`if self.handle: self.handle.close(); self.handle = None`.  The state is the
optional handle attribute; the returned list records the underlying
`close()` calls performed by this invocation. -/
def guardedClose {H : Type} (s : Option H) : Option H × List H :=
  match s with
  | some h => (none, [h])
  | none => (none, [])

/-- `SerialReader.close`: `self.serial.close()` with no guard; pyserial's
`Serial.close()` is idempotent (closing an already-closed port is a no-op),
modelled on the port's open flag.  The second component records whether an
actual port close happened. -/
def serialClose (portOpen : Bool) : Bool × Bool := (false, portOpen)

/-- The units offered by `witskit convert` (`witskit/cli.py`,
`_show_available_units`). -/
inductive WITSUnits where
  | MHR | FHR
  | KPA | PSI | BAR
  | LPM | GPM | M3PM | BPM
  | METERS | FEET | MILLIMETERS | INCHES
  | KGM3 | PPG
  | DEGC | DEGF
  | KDN | KLB | KGM | LBF
  | KNM | KFLB
  | M3 | BBL
  | UNITLESS
  deriving DecidableEq

/-- The unit categories of `witskit/cli.py`'s unit listing (drilling rates,
pressures, flow rates, lengths, densities, temperatures, weights/forces,
torques, volumes, other). -/
inductive UnitCategory where
  | drillingRate | pressure | flowRate | length | density | temperature
  | force | torque | volume | dimensionless
  deriving DecidableEq

/-- Modelled from the spec: `UnitConverter.get_unit_category`
(`witskit/models/unit_converter.py` is not among the source files; §3's unit
category table and §4.4 describe it).  The category assignment follows the
`unit_categories` grouping in `witskit/cli.py`. -/
def get_unit_category : WITSUnits → UnitCategory
  | .MHR | .FHR => .drillingRate
  | .KPA | .PSI | .BAR => .pressure
  | .LPM | .GPM | .M3PM | .BPM => .flowRate
  | .METERS | .FEET | .MILLIMETERS | .INCHES => .length
  | .KGM3 | .PPG => .density
  | .DEGC | .DEGF => .temperature
  | .KDN | .KLB | .KGM | .LBF => .force
  | .KNM | .KFLB => .torque
  | .M3 | .BBL => .volume
  | .UNITLESS => .dimensionless

/-- Modelled from the spec: the linear factor of each non-temperature unit
relative to its category's base unit (§4.4: "value × factor(a,b) with
`factor` defined relative to each category's base unit (e.g., meters for
length, kPa for pressure)"), with the standard metric/field constants; the
implementation file is not among the sources.  Temperature is handled by the
affine formulas in `convert_value`, so its factor is unused. -/
def baseFactor : WITSUnits → ℚ
  | .MHR => 1
  | .FHR => 3048 / 10000
  | .KPA => 1
  | .PSI => 6894757 / 1000000
  | .BAR => 100
  | .LPM => 1
  | .GPM => 3785411784 / 1000000000
  | .M3PM => 1000
  | .BPM => 158987294928 / 1000000000
  | .METERS => 1
  | .FEET => 3048 / 10000
  | .MILLIMETERS => 1 / 1000
  | .INCHES => 254 / 10000
  | .KGM3 => 1
  | .PPG => 1198264 / 10000
  | .DEGC => 1
  | .DEGF => 1
  | .KDN => 1
  | .KLB => 4448222 / 1000000
  | .KGM => 980665 / 100000000
  | .LBF => 4448222 / 1000000000
  | .KNM => 1
  | .KFLB => 1355818 / 1000000
  | .M3 => 1
  | .BBL => 158987294928 / 1000000000000
  | .UNITLESS => 1

/-- Modelled from the spec: `UnitConverter.convert_value` (§4.4): a
`ConversionError` when the two units' categories differ, the identity for
equal units, the affine Celsius/Fahrenheit formulas for temperature, and
`value × factor(a, b)` for every other pair, over exact rationals. -/
def convert_value (v : ℚ) (a b : WITSUnits) : Except String ℚ :=
  if get_unit_category a ≠ get_unit_category b then
    .error "ConversionError"
  else if a = b then .ok v
  else if a = .DEGC ∧ b = .DEGF then .ok (v * 9 / 5 + 32)
  else if a = .DEGF ∧ b = .DEGC then .ok ((v - 32) * 5 / 9)
  else .ok (v * baseFactor a / baseFactor b)

/-! ## Basic facts about `isPre` and `findSub` -/

theorem isPre_iff (p s : List Char) : isPre p s = true ↔ ∃ r, s = p ++ r := by
  induction p generalizing s with
  | nil => simp [isPre]
  | cons a p ih =>
    cases s with
    | nil => simp [isPre]
    | cons b s =>
      simp only [isPre]
      by_cases hab : a = b
      · subst hab
        simp [ih]
      · simp only [if_neg hab]
        constructor
        · intro h; exact absurd h (by simp)
        · rintro ⟨r, hr⟩
          injection hr with h1 h2
          exact absurd h1.symm hab

theorem isPre_length {p s : List Char} (h : isPre p s = true) :
    p.length ≤ s.length := by
  obtain ⟨r, rfl⟩ := (isPre_iff p s).1 h
  simp

theorem isPre_append_mono {p u : List Char} (v : List Char)
    (h : isPre p u = true) : isPre p (u ++ v) = true := by
  obtain ⟨r, rfl⟩ := (isPre_iff p u).1 h
  exact (isPre_iff _ _).2 ⟨r ++ v, by simp⟩

theorem isPre_append_iff_of_le {p u : List Char} (v : List Char)
    (h : p.length ≤ u.length) : isPre p (u ++ v) = true ↔ isPre p u = true := by
  constructor
  · intro hp
    obtain ⟨r, hr⟩ := (isPre_iff _ _).1 hp
    refine (isPre_iff _ _).2 ⟨u.drop p.length, ?_⟩
    have h3 := congrArg (List.take p.length) hr
    rw [List.take_append_eq_append_take, List.take_append_eq_append_take] at h3
    simp [Nat.sub_eq_zero_of_le h] at h3
    calc u = u.take p.length ++ u.drop p.length := (List.take_append_drop _ _).symm
      _ = p ++ u.drop p.length := by rw [h3]
  · exact isPre_append_mono v

theorem findSub_some_iff (p s : List Char) (i : Nat) :
    findSub p s = some i ↔
      (isPre p (s.drop i) = true ∧ ∀ j, j < i → isPre p (s.drop j) = false) := by
  induction s generalizing i with
  | nil =>
    by_cases hp : isPre p [] = true
    · simp only [findSub, if_pos hp, List.drop_nil]
      constructor
      · rintro h
        have : i = 0 := by simpa using h.symm
        subst this
        exact ⟨hp, by omega⟩
      · rintro ⟨-, hmin⟩
        rcases Nat.eq_zero_or_pos i with h0 | h0
        · simp [h0]
        · exact absurd hp (by simpa using hmin 0 h0)
    · simp only [findSub, if_neg hp, List.drop_nil]
      constructor
      · intro h; exact absurd h (by simp)
      · rintro ⟨h1, -⟩; exact absurd h1 hp
  | cons c s ih =>
    by_cases hp : isPre p (c :: s) = true
    · simp only [findSub, if_pos hp]
      constructor
      · intro h
        have : i = 0 := by simpa using h.symm
        subst this
        exact ⟨by simpa using hp, by omega⟩
      · rintro ⟨-, hmin⟩
        rcases Nat.eq_zero_or_pos i with h0 | h0
        · simp [h0]
        · exact absurd hp (by simpa using hmin 0 h0)
    · simp only [findSub, if_neg hp]
      cases i with
      | zero =>
        constructor
        · intro h
          rcases hfs : findSub p s with - | k <;> rw [hfs] at h <;> simp at h
        · rintro ⟨h1, -⟩
          exact absurd (by simpa using h1) hp
      | succ i =>
        have heq : ((findSub p s).map (· + 1) = some (i + 1)) ↔
            findSub p s = some i := by
          rcases hfs : findSub p s with - | k <;> simp
        rw [heq, ih]
        constructor
        · rintro ⟨h1, hmin⟩
          refine ⟨by simpa using h1, ?_⟩
          intro j hj
          cases j with
          | zero => simpa using hp
          | succ j => simpa using hmin j (by omega)
        · rintro ⟨h1, hmin⟩
          refine ⟨by simpa using h1, ?_⟩
          intro j hj
          simpa using hmin (j + 1) (by omega)

theorem findSub_none_all {p s : List Char} (h : findSub p s = none) :
    ∀ i, isPre p (s.drop i) = false := by
  induction s with
  | nil =>
    intro i
    by_cases hp : isPre p [] = true
    · rw [findSub, if_pos hp] at h; exact absurd h (by simp)
    · simpa using hp
  | cons c s ih =>
    by_cases hp : isPre p (c :: s) = true
    · rw [findSub, if_pos hp] at h; exact absurd h (by simp)
    · rw [findSub, if_neg hp] at h
      have hs : findSub p s = none := by
        rcases hfs : findSub p s with - | k
        · rfl
        · rw [hfs] at h; simp at h
      intro i
      cases i with
      | zero => simpa using hp
      | succ i => simpa using ih hs i

theorem hasSub_false_iff (p s : List Char) :
    hasSub p s = false ↔ ∀ i, isPre p (s.drop i) = false := by
  constructor
  · intro h
    have hn : findSub p s = none := by
      rcases hfs : findSub p s with - | k
      · rfl
      · rw [hasSub, hfs] at h; simp at h
    exact findSub_none_all hn
  · intro h
    rcases hfs : findSub p s with - | k
    · simp [hasSub, hfs]
    · have := ((findSub_some_iff p s k).1 hfs).1
      rw [h k] at this
      exact absurd this (by simp)

theorem hasSub_of_isPre {p s : List Char} (i : Nat)
    (h : isPre p (s.drop i) = true) : hasSub p s = true := by
  by_contra hc
  have := (hasSub_false_iff p s).1 (by simpa using hc) i
  rw [h] at this
  exact absurd this (by simp)

theorem findSub_zero {p s : List Char} (h : isPre p s = true) :
    findSub p s = some 0 := by
  cases s <;> simp [findSub, h]

theorem isPre_drop_append_left {p u : List Char} (v : List Char) {i : Nat}
    (h : isPre p (u.drop i) = true) : isPre p ((u ++ v).drop i) = true := by
  rw [List.drop_append_eq_append_drop]
  exact isPre_append_mono _ h

theorem isPre_drop_append_right {p v : List Char} (u : List Char) {j : Nat}
    (h : isPre p (v.drop j) = true) :
    isPre p ((u ++ v).drop (u.length + j)) = true := by
  rw [List.drop_append_eq_append_drop]
  have h1 : u.drop (u.length + j) = [] :=
    List.drop_eq_nil_of_le (Nat.le_add_right _ _)
  have h2 : u.length + j - u.length = j := by omega
  rw [h1, h2]
  simpa using h

theorem findSub_append {p s : List Char} (t : List Char) {i : Nat}
    (hp : p ≠ []) (h : findSub p s = some i) : findSub p (s ++ t) = some i := by
  obtain ⟨h1, hmin⟩ := (findSub_some_iff p s i).1 h
  have hlen : p.length ≤ s.length - i := by
    have := isPre_length h1
    simpa using this
  have hplen : 1 ≤ p.length := by
    cases p
    · exact absurd rfl hp
    · simp
  refine (findSub_some_iff _ _ _).2 ⟨isPre_drop_append_left t h1, ?_⟩
  intro j hj
  have hj2 : p.length ≤ (s.drop j).length := by
    rw [List.length_drop]
    omega
  have hne : ¬ (isPre p ((s ++ t).drop j) = true) := by
    rw [List.drop_append_eq_append_drop, isPre_append_iff_of_le _ hj2]
    simp [hmin j hj]
  simpa using hne

theorem isPre_two_append {x y : Char} {u v : List Char} {i : Nat}
    (h : isPre [x, y] ((u ++ v).drop i) = true) :
    isPre [x, y] (u.drop i) = true ∨
      (i + 1 = u.length ∧ isPre [x] (u.drop i) = true ∧ isPre [y] v = true) ∨
      (u.length ≤ i ∧ isPre [x, y] (v.drop (i - u.length)) = true) := by
  rw [List.drop_append_eq_append_drop] at h
  rcases Nat.lt_or_ge i u.length with hi | hi
  · have hvd : v.drop (i - u.length) = v := by
      rw [Nat.sub_eq_zero_of_le (le_of_lt hi), List.drop_zero]
    rw [hvd] at h
    rcases Nat.lt_or_ge (i + 1) u.length with hi1 | hi1
    · left
      have hlen : ([x, y] : List Char).length ≤ (u.drop i).length := by
        rw [List.length_drop]
        simp only [List.length_cons, List.length_nil]
        omega
      exact (isPre_append_iff_of_le v hlen).1 h
    · have hieq : i + 1 = u.length := by omega
      right; left
      have hlen1 : (u.drop i).length = 1 := by
        rw [List.length_drop]
        omega
      obtain ⟨c, hc⟩ := List.length_eq_one.1 hlen1
      rw [hc] at h
      have h' : isPre [x, y] (c :: v) = true := by simpa using h
      simp only [isPre] at h'
      by_cases hxc : x = c
      · rw [if_pos hxc] at h'
        exact ⟨hieq, by rw [hc, hxc]; simp [isPre], h'⟩
      · rw [if_neg hxc] at h'
        exact absurd h' (by simp)
  · right; right
    have hud : u.drop i = [] := List.drop_eq_nil_of_le hi
    rw [hud] at h
    exact ⟨hi, by simpa using h⟩

/-! ## Facts about `scanStep` and `drain` -/

theorem amp_ne_nil : amp ≠ [] := by simp [amp]

theorem bang_ne_nil : bang ≠ [] := by simp [bang]

theorem findSub_bound {p s : List Char} {i : Nat} (hp : p ≠ [])
    (h : findSub p s = some i) : i + p.length ≤ s.length := by
  have h1 := ((findSub_some_iff p s i).1 h).1
  have hl : p.length ≤ s.length - i := by
    have := isPre_length h1
    simpa using this
  have hp1 : 1 ≤ p.length := by
    cases p
    · exact absurd rfl hp
    · simp
  omega

theorem scanStep_none_of_amp {buf : List Char} (h : findSub amp buf = none) :
    scanStep buf = none := by
  simp [scanStep, h]

theorem scanStep_none_of_bang {buf : List Char} (h : findSub bang buf = none) :
    scanStep buf = none := by
  rcases ha : findSub amp buf with - | s <;> simp [scanStep, ha, h]

theorem scanStep_some_of {buf : List Char} {s e : Nat}
    (ha : findSub amp buf = some s) (hb : findSub bang buf = some e) :
    scanStep buf = some ((buf.drop s).take (e + 2 - s), buf.drop (e + 2)) := by
  simp [scanStep, ha, hb]

theorem scanStep_cases {buf : List Char} {f rest : List Char}
    (h : scanStep buf = some (f, rest)) :
    ∃ s e, findSub amp buf = some s ∧ findSub bang buf = some e ∧
      f = (buf.drop s).take (e + 2 - s) ∧ rest = buf.drop (e + 2) := by
  rcases ha : findSub amp buf with - | s
  · rw [scanStep_none_of_amp ha] at h
    exact absurd h (by simp)
  · rcases hb : findSub bang buf with - | e
    · rw [scanStep_none_of_bang hb] at h
      exact absurd h (by simp)
    · rw [scanStep_some_of ha hb] at h
      have h2 := Option.some.inj h
      exact ⟨s, e, rfl, rfl, (congrArg Prod.fst h2).symm, (congrArg Prod.snd h2).symm⟩

theorem scanStep_length_lt {buf f rest : List Char}
    (h : scanStep buf = some (f, rest)) : rest.length + 2 ≤ buf.length := by
  obtain ⟨s, e, ha, hb, hf, hr⟩ := scanStep_cases h
  have hbd := findSub_bound bang_ne_nil hb
  simp only [bang, List.length_cons, List.length_nil] at hbd
  rw [hr, List.length_drop]
  omega

theorem scanStep_nil : scanStep [] = none := rfl

theorem drainFuel_none {buf : List Char} (hs : scanStep buf = none) :
    ∀ n, drainFuel n buf = ([], buf) := by
  intro n
  cases n <;> simp [drainFuel, hs]

theorem drainFuel_congr : ∀ (k n m : Nat) (buf : List Char),
    buf.length ≤ k → buf.length ≤ n → buf.length ≤ m →
    drainFuel n buf = drainFuel m buf := by
  intro k
  induction k with
  | zero =>
    intro n m buf hk hn hm
    have hbuf : buf = [] := List.eq_nil_of_length_eq_zero (by omega)
    subst hbuf
    rw [drainFuel_none scanStep_nil, drainFuel_none scanStep_nil]
  | succ k ih =>
    intro n m buf hk hn hm
    rcases hs : scanStep buf with - | fr
    · rw [drainFuel_none hs, drainFuel_none hs]
    · obtain ⟨f, rest⟩ := fr
      have hlt := scanStep_length_lt hs
      cases n with
      | zero => omega
      | succ n =>
        cases m with
        | zero => omega
        | succ m =>
          simp only [drainFuel, hs]
          rw [ih n m rest (by omega) (by omega) (by omega)]

theorem drain_none {buf : List Char} (hs : scanStep buf = none) :
    drain buf = ([], buf) :=
  drainFuel_none hs _

theorem drain_some {buf f rest : List Char}
    (hs : scanStep buf = some (f, rest)) :
    drain buf = (f :: (drain rest).1, (drain rest).2) := by
  have hlt := scanStep_length_lt hs
  show drainFuel buf.length buf = _
  obtain ⟨n, hn⟩ : ∃ n, buf.length = n + 1 := ⟨buf.length - 1, by omega⟩
  rw [hn]
  simp only [drainFuel, hs]
  rw [drainFuel_congr rest.length n rest.length rest le_rfl (by omega) le_rfl]
  exact rfl

/-! ## Chunk-boundary independence of the scan -/

theorem scanStep_append {buf f rest : List Char} (t : List Char)
    (h : scanStep buf = some (f, rest)) :
    scanStep (buf ++ t) = some (f, rest ++ t) := by
  obtain ⟨s, e, ha, hb, hf, hr⟩ := scanStep_cases h
  have has := findSub_bound amp_ne_nil ha
  have hbs := findSub_bound bang_ne_nil hb
  simp only [amp, bang, List.length_cons, List.length_nil] at has hbs
  rw [scanStep_some_of (findSub_append t amp_ne_nil ha)
    (findSub_append t bang_ne_nil hb)]
  have hX : ((buf ++ t).drop s).take (e + 2 - s) = f := by
    rw [List.drop_append_eq_append_drop,
      show s - buf.length = 0 by omega, List.drop_zero,
      List.take_append_eq_append_take,
      show e + 2 - s - (buf.drop s).length = 0 by rw [List.length_drop]; omega,
      List.take_zero, List.append_nil, hf]
  have hY : (buf ++ t).drop (e + 2) = rest ++ t := by
    rw [List.drop_append_eq_append_drop,
      show e + 2 - buf.length = 0 by omega, List.drop_zero, hr]
  rw [hX, hY]

theorem scanStep_drain_aux : ∀ (k : Nat) (buf : List Char), buf.length ≤ k →
    scanStep ((drain buf).2) = none := by
  intro k
  induction k with
  | zero =>
    intro buf h
    have hb : buf = [] := List.eq_nil_of_length_eq_zero (by omega)
    subst hb
    rw [drain_none scanStep_nil]
    exact scanStep_nil
  | succ k ih =>
    intro buf h
    rcases hs : scanStep buf with - | fr
    · rw [drain_none hs]
      exact hs
    · obtain ⟨f, rest⟩ := fr
      rw [drain_some hs]
      exact ih rest (by have := scanStep_length_lt hs; omega)

theorem scanStep_drain (buf : List Char) : scanStep ((drain buf).2) = none :=
  scanStep_drain_aux buf.length buf le_rfl

theorem drain_append : ∀ (k : Nat) (buf t : List Char), buf.length ≤ k →
    drain (buf ++ t) =
      ((drain buf).1 ++ (drain ((drain buf).2 ++ t)).1,
        (drain ((drain buf).2 ++ t)).2) := by
  intro k
  induction k with
  | zero =>
    intro buf t h
    have hb : buf = [] := List.eq_nil_of_length_eq_zero (by omega)
    subst hb
    rw [drain_none scanStep_nil]
    simp
  | succ k ih =>
    intro buf t h
    rcases hs : scanStep buf with - | fr
    · rw [drain_none hs]
      simp
    · obtain ⟨f, rest⟩ := fr
      have hlt := scanStep_length_lt hs
      rw [drain_some hs, drain_some (scanStep_append t hs),
        ih rest t (by omega)]
      simp

theorem runScan_flatten : ∀ (cs : List (List Char)) (buf : List Char),
    scanStep buf = none → runScan buf cs = drain (buf ++ cs.flatten) := by
  intro cs
  induction cs with
  | nil =>
    intro buf h
    rw [List.flatten_nil, List.append_nil, drain_none h]
    rfl
  | cons c cs ih =>
    intro buf h
    show ((drain (buf ++ c)).1 ++ (runScan (drain (buf ++ c)).2 cs).1,
      (runScan (drain (buf ++ c)).2 cs).2) = _
    rw [ih (drain (buf ++ c)).2 (scanStep_drain _), List.flatten_cons,
      ← List.append_assoc,
      drain_append ((buf ++ c).length) (buf ++ c) cs.flatten le_rfl]

theorem stream_eq_drain_flatten (cs : List (List Char)) :
    stream cs = drain cs.flatten := by
  rw [stream, runScan_flatten cs [] scanStep_nil]
  simp

/-! ## Locating markers in structured buffers -/

theorem amp_eq : amp = ['&', '&'] := rfl

theorem bang_eq : bang = ['!', '!'] := rfl

theorem isPre_self_append (p r : List Char) : isPre p (p ++ r) = true :=
  (isPre_iff _ _).2 ⟨r, rfl⟩

/-- If a two-character pattern occurs nowhere in `u ++ [x]` nor in `v`,
it occurs nowhere in `u ++ v` (the `u ++ [x]` form also rules out an
occurrence straddling the boundary). -/
theorem hasSub_two_append {x y : Char} {u v : List Char}
    (hu : hasSub [x, y] (u ++ [y]) = false)
    (hv : hasSub [x, y] v = false) : hasSub [x, y] (u ++ v) = false := by
  refine (hasSub_false_iff _ _).2 ?_
  intro j
  by_contra hc
  have hc2 : isPre [x, y] ((u ++ v).drop j) = true := by simpa using hc
  rcases isPre_two_append hc2 with h | ⟨hj, h1, h2⟩ | ⟨hj, h⟩
  · have h3 : isPre [x, y] ((u ++ [y]).drop j) = true := isPre_drop_append_left _ h
    rw [(hasSub_false_iff _ _).1 hu j] at h3
    exact absurd h3 (by simp)
  · obtain ⟨r, hr⟩ := (isPre_iff _ _).1 h1
    have hlen := congrArg List.length hr
    simp only [List.length_drop, List.length_append, List.length_cons,
      List.length_nil] at hlen
    have hr0 : r = [] := List.eq_nil_of_length_eq_zero (by omega)
    subst hr0
    have huj : u.drop j = [x] := by simpa using hr
    have h3 : isPre [x, y] ((u ++ [y]).drop j) = true := by
      rw [List.drop_append_eq_append_drop, show j - u.length = 0 by omega,
        List.drop_zero, huj]
      exact (isPre_iff _ _).2 ⟨[], by simp⟩
    rw [(hasSub_false_iff _ _).1 hu j] at h3
    exact absurd h3 (by simp)
  · rw [(hasSub_false_iff _ _).1 hv (j - u.length)] at h
    exact absurd h (by simp)

/-- In a buffer of the form `m ++ pattern ++ rest` where the pattern occurs
nowhere in `m ++ [x]`, the first occurrence of the pattern is exactly at
`m.length`. -/
theorem findSub_two_concat {x y : Char} {m rest : List Char}
    (hm : hasSub [x, y] (m ++ [y]) = false) :
    findSub [x, y] (m ++ ([x, y] ++ rest)) = some m.length := by
  refine (findSub_some_iff _ _ _).2 ⟨?_, ?_⟩
  · have h0 : isPre [x, y] (([x, y] ++ rest : List Char).drop 0) = true := by
      rw [List.drop_zero]
      exact isPre_self_append _ _
    have := isPre_drop_append_right m h0
    simpa using this
  · intro j hj
    by_contra hc
    have hc2 : isPre [x, y] ((m ++ ([x, y] ++ rest)).drop j) = true := by
      simpa using hc
    rcases isPre_two_append hc2 with h | ⟨hjm, h1, h2⟩ | ⟨hjm, h⟩
    · have h3 : isPre [x, y] ((m ++ [y]).drop j) = true := isPre_drop_append_left _ h
      rw [(hasSub_false_iff _ _).1 hm j] at h3
      exact absurd h3 (by simp)
    · -- straddling occurrence: `m` would end in `x` and the head of the
      -- pattern block is `x`, forcing `y = x` and an occurrence in `m ++ [y]`
      have hyx : y = x := by
        simp only [isPre] at h2
        by_cases hxy : y = x
        · exact hxy
        · rw [if_neg hxy] at h2
          exact absurd h2 (by simp)
      obtain ⟨r, hr⟩ := (isPre_iff _ _).1 h1
      have hlen := congrArg List.length hr
      simp only [List.length_drop, List.length_append, List.length_cons,
        List.length_nil] at hlen
      have hr0 : r = [] := List.eq_nil_of_length_eq_zero (by omega)
      subst hr0
      have huj : m.drop j = [x] := by simpa using hr
      have h3 : isPre [x, y] ((m ++ [y]).drop j) = true := by
        rw [List.drop_append_eq_append_drop, show j - m.length = 0 by omega,
          List.drop_zero, huj, hyx]
        exact (isPre_iff _ _).2 ⟨[], by simp⟩
      rw [(hasSub_false_iff _ _).1 hm j] at h3
      exact absurd h3 (by simp)
    · omega

/-! ## Well-formed frames and their extraction -/

theorem drain_frame_cons {body rest : List Char}
    (hB : hasSub bang (body ++ ['!']) = false) :
    drain ((amp ++ body ++ bang) ++ rest)
      = ((amp ++ body ++ bang) :: (drain rest).1, (drain rest).2) := by
  have ha : findSub amp ((amp ++ body ++ bang) ++ rest) = some 0 := by
    apply findSub_zero
    have h0 : (amp ++ body ++ bang) ++ rest = amp ++ (body ++ (bang ++ rest)) := by
      simp [List.append_assoc]
    rw [h0]
    exact isPre_self_append _ _
  have hm : hasSub ['!', '!'] ((amp ++ body) ++ ['!']) = false := by
    rw [List.append_assoc]
    refine hasSub_two_append (by decide) ?_
    exact hB
  have hb : findSub bang ((amp ++ body ++ bang) ++ rest) =
      some (amp ++ body).length := by
    have h2 : (amp ++ body ++ bang) ++ rest =
        (amp ++ body) ++ (['!', '!'] ++ rest) := by
      simp [List.append_assoc, bang_eq]
    rw [h2]
    exact findSub_two_concat hm
  have hn : (amp ++ body).length + 2 = (amp ++ body ++ bang).length := by
    simp [bang_eq]
    omega
  have hstep : scanStep ((amp ++ body ++ bang) ++ rest) =
      some (amp ++ body ++ bang, rest) := by
    rw [scanStep_some_of ha hb, List.drop_zero, Nat.sub_zero, hn,
      List.take_left, List.drop_left]
  rw [drain_some hstep]

theorem drain_wf_cons {f rest : List Char} (hf : wfFrame f) :
    drain (f ++ rest) = (f :: (drain rest).1, (drain rest).2) := by
  obtain ⟨body, rfl, hA, hB⟩ := hf
  exact drain_frame_cons hB

theorem drain_flatten_wf {fs : List (List Char)} (h : ∀ f ∈ fs, wfFrame f) :
    drain fs.flatten = (fs, []) := by
  induction fs with
  | nil => simpa using drain_none scanStep_nil
  | cons f fs ih =>
    rw [List.flatten_cons, drain_wf_cons (h f (by simp)),
      ih (fun g hg => h g (by simp [hg]))]

/-! ## Shape of every emitted frame -/

theorem drain_frame_shape : ∀ (k : Nat) (buf f : List Char), buf.length ≤ k →
    f ∈ (drain buf).1 →
    f = [] ∨ (isPre amp f = true ∧ ∃ u, f = u ++ bang) := by
  intro k
  induction k with
  | zero =>
    intro buf f h hf
    have hb : buf = [] := List.eq_nil_of_length_eq_zero (by omega)
    subst hb
    rw [drain_none scanStep_nil] at hf
    simp at hf
  | succ k ih =>
    intro buf f h hf
    rcases hs : scanStep buf with - | fr
    · rw [drain_none hs] at hf
      simp at hf
    · obtain ⟨f0, rest⟩ := fr
      rw [drain_some hs] at hf
      rcases List.mem_cons.1 hf with rfl | hf
      · obtain ⟨s, e, ha, hb, hf0, hr⟩ := scanStep_cases hs
        rcases Nat.le_total (e + 2) s with hes | hesge
        · left
          rw [hf0, show e + 2 - s = 0 by omega, List.take_zero]
        · by_cases hes : e + 2 ≤ s
          · left
            rw [hf0, show e + 2 - s = 0 by omega, List.take_zero]
          have h1 := ((findSub_some_iff _ _ _).1 ha).1
          have h2 := ((findSub_some_iff _ _ _).1 hb).1
          obtain ⟨r1, hr1⟩ := (isPre_iff _ _).1 h1
          obtain ⟨r2, hr2⟩ := (isPre_iff _ _).1 h2
          have hse : s ≤ e := by
            by_contra hgt
            have hse1 : s = e + 1 := by omega
            have hd : buf.drop s = (buf.drop e).drop 1 := by
              rw [List.drop_drop, hse1, Nat.add_comm]
            rw [hr2, hr1] at hd
            rw [bang_eq] at hd
            simp [amp_eq] at hd
          right
          constructor
          · rw [hf0, hr1, amp_eq]
            obtain ⟨n, hn⟩ : ∃ n, e + 2 - s = n + 2 := ⟨e - s, by omega⟩
            rw [hn]
            show isPre ['&', '&'] (('&' :: '&' :: r1).take (n + 2)) = true
            simp [List.take_succ_cons, isPre]
          · refine ⟨(buf.drop s).take (e - s), ?_⟩
            rw [hf0, show e + 2 - s = (e - s) + 2 by omega,
              List.take_add]
            congr 1
            rw [List.drop_drop, show s + (e - s) = e by omega, hr2, bang_eq]
            rfl
      · exact ih rest f (by have := scanStep_length_lt hs; omega) hf

theorem stream_frame_shape {cs : List (List Char)} {f : List Char}
    (hf : f ∈ (stream cs).1) :
    f = [] ∨ (isPre amp f = true ∧ ∃ u, f = u ++ bang) := by
  rw [stream_eq_drain_flatten] at hf
  exact drain_frame_shape cs.flatten.length cs.flatten f le_rfl hf

/-! ## Garbage is never emitted -/

theorem hasSub_drop_false {p s : List Char} (k : Nat)
    (h : hasSub p s = false) : hasSub p (s.drop k) = false := by
  refine (hasSub_false_iff _ _).2 (fun i => ?_)
  rw [List.drop_drop]
  exact (hasSub_false_iff _ _).1 h _

theorem hasSub_of_append_false {p u w : List Char}
    (h : hasSub p (u ++ w) = false) : hasSub p u = false := by
  refine (hasSub_false_iff _ _).2 (fun i => ?_)
  by_contra hc
  have h2 : isPre p ((u ++ w).drop i) = true :=
    isPre_drop_append_left _ (by simpa using hc)
  rw [(hasSub_false_iff _ _).1 h i] at h2
  simp at h2

theorem no_snoc_of_clean {x y : Char} {u : List Char}
    (h : hasSub [x, y] (u ++ [y]) = false) : ∀ w, u ≠ w ++ [x] := by
  intro w hw
  have h1 : isPre [x, y] ((w ++ [x, y]).drop (w.length + 0)) = true := by
    refine isPre_drop_append_right w ?_
    simpa using isPre_self_append [x, y] []
  have h2 : u ++ [y] = w ++ [x, y] := by rw [hw]; simp
  rw [← h2] at h1
  rw [(hasSub_false_iff _ _).1 h (w.length + 0)] at h1
  simp at h1

theorem hasSub_two_append_gen {x y : Char} {u v : List Char}
    (hu : hasSub [x, y] u = false) (hv : hasSub [x, y] v = false)
    (hmid : (∀ w, u ≠ w ++ [x]) ∨ isPre [y] v = false) :
    hasSub [x, y] (u ++ v) = false := by
  refine (hasSub_false_iff _ _).2 (fun j => ?_)
  by_contra hc
  have hc2 : isPre [x, y] ((u ++ v).drop j) = true := by simpa using hc
  rcases isPre_two_append hc2 with h | ⟨hj, h1, h2⟩ | ⟨hj, h⟩
  · rw [(hasSub_false_iff _ _).1 hu j] at h
    simp at h
  · obtain ⟨r, hr⟩ := (isPre_iff _ _).1 h1
    have hlen := congrArg List.length hr
    simp only [List.length_drop, List.length_append, List.length_cons,
      List.length_nil] at hlen
    have hr0 : r = [] := List.eq_nil_of_length_eq_zero (by omega)
    subst hr0
    have huj : u.drop j = [x] := by simpa using hr
    rcases hmid with hm | hm
    · refine hm (u.take j) ?_
      conv_lhs => rw [← List.take_append_drop j u]
      rw [huj]
    · rw [hm] at h2
      simp at h2
  · rw [(hasSub_false_iff _ _).1 hv (j - u.length)] at h
    simp at h

theorem amp_ne_snoc_bang : ∀ w : List Char, amp ≠ w ++ ['!'] := by
  intro w hw
  have hlen := congrArg List.length hw
  simp only [amp_eq, List.length_cons, List.length_nil, List.length_append] at hlen
  have hw1 : w.length = 1 := by omega
  obtain ⟨c, rfl⟩ := List.length_eq_one.1 hw1
  rw [amp_eq] at hw
  injection hw with h1 h2
  exact absurd h2 (by decide)

theorem isPre_bang_head_amp (t : List Char) :
    isPre ['!'] (amp ++ t) = false := by
  rw [amp_eq]
  simp only [List.cons_append]
  simp [isPre, show ('!' : Char) ≠ '&' by decide]

theorem drain_garbage : ∀ (k : Nat) (g1 : List Char) (fs : List (List Char))
    (g2 : List Char), (g1 ++ fs.flatten ++ g2).length ≤ k →
    (∀ f ∈ fs, wfFrame f) →
    hasSub amp (g1 ++ ['&']) = false →
    hasSub amp g2 = false →
    ∀ fr ∈ (drain (g1 ++ fs.flatten ++ g2)).1, fr = [] ∨ fr ∈ fs := by
  intro k
  induction k with
  | zero =>
    intro g1 fs g2 hk hwf hg1 hg2 fr hfr
    have hb : g1 ++ fs.flatten ++ g2 = [] :=
      List.eq_nil_of_length_eq_zero (by omega)
    rw [hb, drain_none scanStep_nil] at hfr
    simp at hfr
  | succ k ih =>
    intro g1 fs g2 hk hwf hg1 hg2 fr hfr
    cases fs with
    | nil =>
      rw [List.flatten_nil, List.append_nil] at hfr
      have hno : hasSub amp (g1 ++ g2) = false :=
        hasSub_two_append_gen (hasSub_of_append_false hg1) hg2
          (Or.inl (no_snoc_of_clean hg1))
      have hfsn : findSub amp (g1 ++ g2) = none := by
        rcases hun : findSub amp (g1 ++ g2) with - | i
        · rfl
        · rw [hasSub, hun] at hno
          simp at hno
      rw [drain_none (scanStep_none_of_amp hfsn)] at hfr
      simp at hfr
    | cons f fs' =>
      obtain ⟨body, hfeq, hA, hB⟩ := hwf f (by simp)
      have hbuf : g1 ++ (f :: fs').flatten ++ g2
          = g1 ++ (f ++ (fs'.flatten ++ g2)) := by
        simp [List.append_assoc]
      have ha : findSub amp (g1 ++ (f ++ (fs'.flatten ++ g2)))
          = some g1.length := by
        have hxx : g1 ++ (f ++ (fs'.flatten ++ g2))
            = g1 ++ (['&', '&'] ++ (body ++ bang ++ (fs'.flatten ++ g2))) := by
          rw [hfeq, amp_eq]
          simp [List.append_assoc]
        rw [hxx]
        exact findSub_two_concat hg1
      rw [hbuf] at hfr
      cases hbg1 : hasSub bang g1 with
      | true =>
        obtain ⟨e, he⟩ := Option.isSome_iff_exists.1 (by rwa [hasSub] at hbg1)
        have heb := findSub_bound bang_ne_nil he
        simp only [bang_eq, List.length_cons, List.length_nil] at heb
        have hb2 : findSub bang (g1 ++ (f ++ (fs'.flatten ++ g2))) = some e :=
          findSub_append _ bang_ne_nil he
        have hstep : scanStep (g1 ++ (f ++ (fs'.flatten ++ g2)))
            = some ([], g1.drop (e + 2) ++ (f ++ (fs'.flatten ++ g2))) := by
          rw [scanStep_some_of ha hb2,
            show e + 2 - g1.length = 0 by omega, List.take_zero,
            List.drop_append_eq_append_drop,
            show e + 2 - g1.length = 0 by omega, List.drop_zero]
        rw [drain_some hstep] at hfr
        rcases List.mem_cons.1 hfr with hfr0 | hfr2
        · exact Or.inl hfr0
        · have happ : g1.drop (e + 2) ++ (f ++ (fs'.flatten ++ g2))
              = g1.drop (e + 2) ++ (f :: fs').flatten ++ g2 := by
            simp [List.append_assoc]
          rw [happ] at hfr2
          have hg1' : hasSub amp (g1.drop (e + 2) ++ ['&']) = false := by
            have hd := hasSub_drop_false (e + 2) hg1
            rw [List.drop_append_eq_append_drop,
              show e + 2 - g1.length = 0 by omega, List.drop_zero] at hd
            exact hd
          have hlen' : (g1.drop (e + 2) ++ (f :: fs').flatten ++ g2).length ≤ k := by
            simp only [List.length_append, List.length_drop] at hk ⊢
            omega
          exact ih (g1.drop (e + 2)) (f :: fs') g2 hlen' hwf hg1' hg2 fr hfr2
      | false =>
        have hB' : hasSub ['!', '!'] (body ++ ['!']) = false := hB
        have hbg1' : hasSub ['!', '!'] g1 = false := hbg1
        have t1 : hasSub ['!', '!'] (amp ++ (body ++ ['!'])) = false :=
          hasSub_two_append_gen (by decide) hB' (Or.inl amp_ne_snoc_bang)
        have t2 : hasSub ['!', '!'] (g1 ++ (amp ++ (body ++ ['!']))) = false :=
          hasSub_two_append_gen hbg1' t1 (Or.inr (isPre_bang_head_amp _))
        have hm2 : hasSub ['!', '!'] ((g1 ++ (amp ++ body)) ++ ['!']) = false := by
          have hxx : (g1 ++ (amp ++ body)) ++ ['!']
              = g1 ++ (amp ++ (body ++ ['!'])) := by
            simp [List.append_assoc]
          rw [hxx]
          exact t2
        have hbpos : findSub bang (g1 ++ (f ++ (fs'.flatten ++ g2)))
            = some (g1 ++ (amp ++ body)).length := by
          have hxx : g1 ++ (f ++ (fs'.flatten ++ g2))
              = (g1 ++ (amp ++ body)) ++ (['!', '!'] ++ (fs'.flatten ++ g2)) := by
            rw [hfeq, bang_eq]
            simp [List.append_assoc]
          rw [hxx]
          exact findSub_two_concat hm2
        have hflen : (g1 ++ (amp ++ body)).length + 2 - g1.length = f.length := by
          rw [hfeq]
          simp only [List.length_append, amp_eq, bang_eq, List.length_cons,
            List.length_nil]
          omega
        have hstep : scanStep (g1 ++ (f ++ (fs'.flatten ++ g2)))
            = some (f, fs'.flatten ++ g2) := by
          rw [scanStep_some_of ha hbpos]
          have hc1 : ((g1 ++ (f ++ (fs'.flatten ++ g2))).drop g1.length).take
              ((g1 ++ (amp ++ body)).length + 2 - g1.length) = f := by
            rw [List.drop_left, hflen, List.take_left]
          have hc2 : (g1 ++ (f ++ (fs'.flatten ++ g2))).drop
              ((g1 ++ (amp ++ body)).length + 2) = fs'.flatten ++ g2 := by
            have hxx : g1 ++ (f ++ (fs'.flatten ++ g2))
                = (g1 ++ f) ++ (fs'.flatten ++ g2) := by
              simp [List.append_assoc]
            have hyy : (g1 ++ (amp ++ body)).length + 2 = (g1 ++ f).length := by
              rw [hfeq]
              simp only [List.length_append, amp_eq, bang_eq, List.length_cons,
                List.length_nil]
              omega
            rw [hxx, hyy, List.drop_left]
          rw [hc1, hc2]
        rw [drain_some hstep] at hfr
        rcases List.mem_cons.1 hfr with hfr0 | hfr2
        · exact Or.inr (by simp [hfr0])
        · have hfr3 : fr ∈ (drain (([] : List Char) ++ fs'.flatten ++ g2)).1 := by
            simpa using hfr2
          have hwf' : ∀ g ∈ fs', wfFrame g := fun g hg => hwf g (by simp [hg])
          have hfl : f.length = body.length + 4 := by
            rw [hfeq]
            simp only [List.length_append, amp_eq, bang_eq, List.length_cons,
              List.length_nil]
            omega
          have hlen' : (([] : List Char) ++ fs'.flatten ++ g2).length ≤ k := by
            simp only [List.flatten_cons, List.length_append, List.length_nil]
              at hk ⊢
            omega
          rcases ih [] fs' g2 hlen' hwf' (by decide) hg2 fr hfr3 with h | h
          · exact Or.inl h
          · exact Or.inr (by simp [h])

/-! ## Claim theorems: frame extraction -/

/-- **C1**: for every input text that is a concatenation of `N`
non-overlapping well-formed `&&...!!` frames, feeding it to the transport
buffer-scan extraction (`FileReader.stream` / `TCPReader.stream`) in any
division into chunks yields exactly `N` frames, the `i`-th emitted frame
being the `i`-th original frame's text from its `&&` through its `!!`
inclusive. -/
theorem extraction_yields_original_frames (fs cs : List (List Char))
    (hwf : ∀ f ∈ fs, wfFrame f) (hcs : cs.flatten = fs.flatten) :
    (stream cs).1 = fs := by
  rw [stream_eq_drain_flatten, hcs, drain_flatten_wf hwf]

theorem extraction_yields_original_frames_witness :
    (∀ f ∈ [['&', '&', 'A', '!', '!'], ['&', '&', 'B', '!', '!']], wfFrame f) ∧
    ([['&', '&', 'A', '!'], ['!', '&', '&', 'B', '!', '!']].flatten
      = [['&', '&', 'A', '!', '!'], ['&', '&', 'B', '!', '!']].flatten) ∧
    (stream [['&', '&', 'A', '!'], ['!', '&', '&', 'B', '!', '!']]).1
      = [['&', '&', 'A', '!', '!'], ['&', '&', 'B', '!', '!']] := by
  have hwf : ∀ f ∈ [['&', '&', 'A', '!', '!'], ['&', '&', 'B', '!', '!']],
      wfFrame f := by
    intro f hf
    simp only [List.mem_cons, List.not_mem_nil, or_false] at hf
    rcases hf with rfl | rfl
    · exact ⟨['A'], rfl, by decide, by decide⟩
    · exact ⟨['B'], rfl, by decide, by decide⟩
  exact ⟨hwf, by decide,
    extraction_yields_original_frames
      [['&', '&', 'A', '!', '!'], ['&', '&', 'B', '!', '!']]
      [['&', '&', 'A', '!'], ['!', '&', '&', 'B', '!', '!']] hwf (by decide)⟩

/-- **C3**: running the frame-extraction scan over any two chunkings of the
same text (for example chunks of size 1 versus chunks of size 1000) produces
the same ordered sequence of extracted frames. -/
theorem chunk_boundary_independence (cs1 cs2 : List (List Char))
    (h : cs1.flatten = cs2.flatten) : (stream cs1).1 = (stream cs2).1 := by
  rw [stream_eq_drain_flatten, stream_eq_drain_flatten, h]

theorem chunk_boundary_independence_witness :
    ([['&'], ['&'], ['x'], ['!'], ['!'], ['&'], ['&'], ['y'], ['!'], ['!']].flatten
      = [['&', '&', 'x', '!', '!', '&', '&', 'y', '!', '!']].flatten) ∧
    (stream [['&'], ['&'], ['x'], ['!'], ['!'], ['&'], ['&'], ['y'], ['!'], ['!']]).1
      = (stream [['&', '&', 'x', '!', '!', '&', '&', 'y', '!', '!']]).1 :=
  ⟨by decide, chunk_boundary_independence
    [['&'], ['&'], ['x'], ['!'], ['!'], ['&'], ['&'], ['y'], ['!'], ['!']]
    [['&', '&', 'x', '!', '!', '&', '&', 'y', '!', '!']] (by decide)⟩

/-- **C2 counterexample**: the claim says every emitted frame begins with
`&&` and ends with `!!`, but when the first `!!` in the buffer lies before
the first `&&` (buffer `"!!&&"`), `buffer.index("!!") + 2 ≤ buffer.index("&&")`
and the emitted Python slice `buffer[start:end]` is the empty string, which
begins with neither marker. -/
theorem emitted_frame_empty_counterexample :
    (stream [['!', '!', '&', '&']]).1 = [[]] ∧ isPre amp [] = false ∧
      hasSub bang [] = false := by decide

/-- **C2 (amended)**: every string emitted by the extraction scan either is
the empty string (which happens exactly when the first end marker of the
buffer lies strictly before the first start marker) or begins with the start
marker `&&` and ends with the two characters of an end marker `!!`. -/
theorem emitted_frame_delimited (cs : List (List Char)) (f : List Char)
    (hf : f ∈ (stream cs).1) :
    f = [] ∨ (isPre amp f = true ∧ ∃ u, f = u ++ bang) :=
  stream_frame_shape hf

theorem emitted_frame_delimited_witness :
    ['&', '&', 'x', '!', '!'] ∈ (stream [['&', '&', 'x', '!', '!']]).1 ∧
    (['&', '&', 'x', '!', '!'] = ([] : List Char) ∨
      (isPre amp ['&', '&', 'x', '!', '!'] = true ∧
        ∃ u, ['&', '&', 'x', '!', '!'] = u ++ bang)) :=
  ⟨by decide, emitted_frame_delimited [['&', '&', 'x', '!', '!']]
    ['&', '&', 'x', '!', '!'] (by decide)⟩

/-- **C4**: text preceding a start marker, or following a final end marker
with no subsequent start marker, never appears in any emitted frame: for an
input `g1 ++ frames ++ g2` where `g1` holds no start marker (and does not
end in `&`, which would merge into one) and `g2` holds no start marker,
every emitted frame is the empty string or one of the original frames — the
garbage text `g1`/`g2` appears in no emitted frame. -/
theorem garbage_never_emitted (g1 g2 : List Char) (fs cs : List (List Char))
    (hwf : ∀ f ∈ fs, wfFrame f)
    (hg1 : hasSub amp (g1 ++ ['&']) = false)
    (hg2 : hasSub amp g2 = false)
    (hcs : cs.flatten = g1 ++ fs.flatten ++ g2) :
    ∀ fr ∈ (stream cs).1, fr = [] ∨ fr ∈ fs := by
  intro fr hfr
  rw [stream_eq_drain_flatten, hcs] at hfr
  exact drain_garbage (g1 ++ fs.flatten ++ g2).length g1 fs g2 le_rfl
    hwf hg1 hg2 fr hfr

theorem garbage_never_emitted_witness :
    (∀ f ∈ [['&', '&', 'A', '!', '!']], wfFrame f) ∧
    hasSub amp (['X', '!', '!'] ++ ['&']) = false ∧
    hasSub amp ['Y', '!'] = false ∧
    ([['X', '!', '!', '&', '&', 'A', '!', '!', 'Y', '!']].flatten
      = ['X', '!', '!'] ++ [['&', '&', 'A', '!', '!']].flatten ++ ['Y', '!']) ∧
    ∀ fr ∈ (stream [['X', '!', '!', '&', '&', 'A', '!', '!', 'Y', '!']]).1,
      fr = [] ∨ fr ∈ [['&', '&', 'A', '!', '!']] := by
  have hwf : ∀ f ∈ [['&', '&', 'A', '!', '!']], wfFrame f := by
    intro f hf
    simp only [List.mem_cons, List.not_mem_nil, or_false] at hf
    subst hf
    exact ⟨['A'], rfl, by decide, by decide⟩
  exact ⟨hwf, by decide, by decide, by decide,
    garbage_never_emitted ['X', '!', '!'] ['Y', '!'] [['&', '&', 'A', '!', '!']]
      [['X', '!', '!', '&', '&', 'A', '!', '!', 'Y', '!']]
      hwf (by decide) (by decide) (by decide)⟩

/-- **C5**: when the source ends while the buffer holds a start marker with
no matching end marker, the generator terminates normally and the buffered
partial frame is never emitted: no string containing `&&` but no `!!` is
ever among the frames emitted for any finite chunk sequence. -/
theorem partial_frame_never_emitted (cs : List (List Char)) (p : List Char)
    (h1 : hasSub amp p = true) (h2 : hasSub bang p = false) :
    p ∉ (stream cs).1 := by
  intro hp
  rcases stream_frame_shape hp with hemp | ⟨hpre, u, hsuf⟩
  · subst hemp
    exact absurd h1 (by decide)
  · subst hsuf
    have hocc : isPre bang ((u ++ bang).drop u.length) = true := by
      rw [List.drop_append_eq_append_drop, Nat.sub_self, List.drop_zero,
        List.drop_eq_nil_of_le le_rfl]
      simpa using isPre_self_append bang []
    rw [hasSub_of_isPre _ hocc] at h2
    simp at h2

theorem partial_frame_never_emitted_witness :
    hasSub amp ['&', '&', 'x'] = true ∧
    hasSub bang ['&', '&', 'x'] = false ∧
    ['&', '&', 'x'] ∉
      (stream [['&', '&', 'A', '!', '!', '&', '&', 'x']]).1 :=
  ⟨by decide, by decide,
    partial_frame_never_emitted [['&', '&', 'A', '!', '!', '&', '&', 'x']]
      ['&', '&', 'x'] (by decide) (by decide)⟩

/-- **C6**: when a second `&&` appears after an unterminated `&&` and before
the next `!!` (buffer `&& a && b !!`), the scan emits a single frame running
from the first start marker through that end marker, the second `&&` sitting
inside the emitted frame rather than starting a new one. -/
theorem second_start_marker_swallowed (a b : List Char)
    (ha1 : hasSub amp a = false) (ha2 : hasSub bang a = false)
    (hb1 : hasSub amp b = false) (hb2 : hasSub bang (b ++ ['!']) = false) :
    drain (amp ++ a ++ amp ++ b ++ bang)
      = ([amp ++ a ++ amp ++ b ++ bang], []) := by
  have hb2' : hasSub ['!', '!'] (b ++ ['!']) = false := hb2
  have ha2' : hasSub ['!', '!'] a = false := ha2
  have t1 : hasSub ['!', '!'] (amp ++ (b ++ ['!'])) = false :=
    hasSub_two_append_gen (by decide) hb2' (Or.inl amp_ne_snoc_bang)
  have t2 : hasSub ['!', '!'] (a ++ (amp ++ (b ++ ['!']))) = false :=
    hasSub_two_append_gen ha2' t1 (Or.inr (isPre_bang_head_amp _))
  have hOK : hasSub bang ((a ++ amp ++ b) ++ ['!']) = false := by
    have hxx : (a ++ amp ++ b) ++ ['!'] = a ++ (amp ++ (b ++ ['!'])) := by
      simp [List.append_assoc]
    rw [hxx]
    exact t2
  have h := @drain_frame_cons (a ++ amp ++ b) [] hOK
  have hxx : amp ++ a ++ amp ++ b ++ bang
      = (amp ++ (a ++ amp ++ b) ++ bang) ++ [] := by
    simp [List.append_assoc]
  rw [hxx, h, drain_none scanStep_nil]
  simp [List.append_assoc]

theorem second_start_marker_swallowed_witness :
    hasSub amp ['A'] = false ∧ hasSub bang ['A'] = false ∧
    hasSub amp ['B'] = false ∧ hasSub bang (['B'] ++ ['!']) = false ∧
    drain (amp ++ ['A'] ++ amp ++ ['B'] ++ bang)
      = ([amp ++ ['A'] ++ amp ++ ['B'] ++ bang], []) :=
  ⟨by decide, by decide, by decide, by decide,
    second_start_marker_swallowed ['A'] ['B']
      (by decide) (by decide) (by decide) (by decide)⟩

/-- **C10**: the inner `while "&&" in buffer and "!!" in buffer` loop
terminates: each iteration removes a non-empty prefix of the buffer ending
at the first `!!` plus two characters, so the buffer length strictly
decreases by at least two, making each per-chunk extraction step a total
function (`drain` is defined by this very decrease). -/
theorem scan_loop_step_decreases (buf f rest : List Char)
    (h : scanStep buf = some (f, rest)) :
    rest.length + 2 ≤ buf.length ∧
      ∃ e, findSub bang buf = some e ∧ rest = buf.drop (e + 2) := by
  refine ⟨scanStep_length_lt h, ?_⟩
  obtain ⟨s, e, ha, hb, hf, hr⟩ := scanStep_cases h
  exact ⟨e, hb, hr⟩

theorem scan_loop_step_decreases_witness :
    scanStep ['&', '&', 'x', '!', '!', 'q'] = some (['&', '&', 'x', '!', '!'], ['q']) ∧
    (['q'].length + 2 ≤ ['&', '&', 'x', '!', '!', 'q'].length ∧
      ∃ e, findSub bang ['&', '&', 'x', '!', '!', 'q'] = some e ∧
        ['q'] = ['&', '&', 'x', '!', '!', 'q'].drop (e + 2)) :=
  ⟨by decide, scan_loop_step_decreases ['&', '&', 'x', '!', '!', 'q']
    ['&', '&', 'x', '!', '!'] ['q'] (by decide)⟩

/-! ## Claim theorems: TCP stream end, close, unit conversion -/

theorem tcpGo_data_end : ∀ (chunks : List (List Char)) (buf : List Char)
    (rest : List RecvResult) (t : RecvResult),
    (∀ c ∈ chunks, c ≠ []) → (t = .data [] ∨ t = .connReset) →
    tcpGo buf (chunks.map .data ++ t :: rest) = .ok (runScan buf chunks).1 := by
  intro chunks
  induction chunks with
  | nil =>
    intro buf rest t hne ht
    rcases ht with rfl | rfl <;> simp [tcpGo, runScan]
  | cons c cs ih =>
    intro buf rest t hne ht
    have hc : ¬ c = [] := hne c (by simp)
    show tcpGo buf (.data c :: (cs.map .data ++ t :: rest)) = _
    simp only [tcpGo, if_neg hc]
    rw [ih (drain (buf ++ c)).2 rest t (fun d hd => hne d (by simp [hd])) ht]
    rfl

/-- **C7**: when the socket read returns no data (peer closed the
connection) or raises `ConnectionResetError`, `TCPReader.stream` ends the
frame stream normally: the generator stops yielding — having emitted exactly
the frames extracted from the data received so far — and no error propagates
to the caller (the result is `.ok`, never `.error`). -/
theorem tcp_reset_ends_stream_normally (chunks : List (List Char))
    (rest : List RecvResult) (t : RecvResult)
    (hne : ∀ c ∈ chunks, c ≠ [])
    (ht : t = .data [] ∨ t = .connReset) :
    tcpStream (chunks.map .data ++ t :: rest) = .ok (stream chunks).1 :=
  tcpGo_data_end chunks [] rest t hne ht

theorem tcp_reset_ends_stream_normally_witness :
    (∀ c ∈ [['&', '&', 'x', '!', '!']], c ≠ []) ∧
    ((RecvResult.connReset = RecvResult.data [] ∨
      RecvResult.connReset = RecvResult.connReset)) ∧
    tcpStream ([['&', '&', 'x', '!', '!']].map RecvResult.data
        ++ RecvResult.connReset :: [])
      = .ok (stream [['&', '&', 'x', '!', '!']]).1 :=
  ⟨by decide, Or.inr rfl,
    tcp_reset_ends_stream_normally [['&', '&', 'x', '!', '!']] []
      RecvResult.connReset (by decide) (Or.inr rfl)⟩

/-- **C8**: for every transport reader and every reachable state, calling
`close()` a second time — or after the stream is exhausted — is safe (the
model is a total function, mirroring the `if self.handle:` guard and
pyserial's idempotent port close) and leaves the transport in the same state
as a single `close()`: the guarded readers end with the handle attribute
`none` and the second call performs no underlying close call, and the serial
port close is idempotent on the port state. -/
theorem close_idempotent (H : Type) (s : Option H) (b : Bool) :
    (guardedClose (guardedClose s).1).1 = (guardedClose s).1 ∧
    (guardedClose (guardedClose s).1).2 = [] ∧
    (serialClose (serialClose b).1).1 = (serialClose b).1 ∧
    (serialClose (serialClose b).1).2 = false := by
  cases s <;> simp [guardedClose, serialClose]

theorem baseFactor_ne_zero (u : WITSUnits) : baseFactor u ≠ 0 := by
  cases u <;> norm_num [baseFactor]

/-- **C9**: for any two units `a` and `b` in the same category and every
value `v`, `convert(convert(v, a, b), b, a)` equals `v` within `1e-9`
relative tolerance.  The model computes over exact rationals, where the
round trip is exact (categories other than temperature multiply by inverse
factors; the Celsius/Fahrenheit affine maps are mutual inverses), hence
within any tolerance. -/
theorem convert_round_trip (a b : WITSUnits) (v : ℚ)
    (h : get_unit_category a = get_unit_category b) :
    ∃ w r, convert_value v a b = .ok w ∧ convert_value w b a = .ok r ∧
      |r - v| ≤ 1 / 1000000000 * |v| := by
  have habs : |v - v| ≤ 1 / 1000000000 * |v| := by
    simp only [sub_self, abs_zero]
    positivity
  by_cases hab : a = b
  · subst hab
    exact ⟨v, v, by simp [convert_value], by simp [convert_value], habs⟩
  · by_cases hcf : a = .DEGC ∧ b = .DEGF
    · obtain ⟨rfl, rfl⟩ := hcf
      refine ⟨v * 9 / 5 + 32, v, by simp [convert_value, get_unit_category], ?_, habs⟩
      have hv : (v * 9 / 5 + 32 - 32) * 5 / 9 = v := by ring
      simp [convert_value, get_unit_category, hv]
    · by_cases hfc : a = .DEGF ∧ b = .DEGC
      · obtain ⟨rfl, rfl⟩ := hfc
        refine ⟨(v - 32) * 5 / 9, v, by simp [convert_value, get_unit_category], ?_, habs⟩
        have hv : (v - 32) * 5 / 9 * 9 / 5 + 32 = v := by ring
        simp [convert_value, get_unit_category, hv]
      · have hba : ¬ b = a := fun hh => hab hh.symm
        have hbcf : ¬ (b = .DEGC ∧ a = .DEGF) := fun ⟨h1, h2⟩ => hfc ⟨h2, h1⟩
        have hbfc : ¬ (b = .DEGF ∧ a = .DEGC) := fun ⟨h1, h2⟩ => hcf ⟨h2, h1⟩
        refine ⟨v * baseFactor a / baseFactor b, v, ?_, ?_, habs⟩
        · simp [convert_value, h, hab, hcf, hfc]
        · simp only [convert_value, h.symm]
          simp [hba, hbcf, hbfc]
          rw [div_eq_iff (baseFactor_ne_zero a), div_mul_eq_mul_div,
            div_eq_iff (baseFactor_ne_zero b)]

theorem convert_round_trip_witness :
    get_unit_category WITSUnits.PSI = get_unit_category WITSUnits.KPA ∧
    (∃ w r, convert_value 2 WITSUnits.PSI WITSUnits.KPA = .ok w ∧
      convert_value w WITSUnits.KPA WITSUnits.PSI = .ok r ∧
      |r - 2| ≤ 1 / 1000000000 * |(2 : ℚ)|) :=
  ⟨by decide, convert_round_trip WITSUnits.PSI WITSUnits.KPA 2 (by decide)⟩
